import Mathlib

/-!
Verification of the Alpha-Miner process-discovery pipeline
(`alpha_algo_app.py` and the trace filter of `frontend_streamlit_app.py`).

The Python dictionaries are embedded as association lists (first match wins,
which coincides with dict semantics because every builder inserts each key at
most once); Python sets of activities become `Finset String`; the four
footprint symbols `-->`, `<--`, `| |`, ` # ` become the inductive type `Rel`.
-/

namespace ProcessMining

/-- The four footprint relation symbols of the Python code:
`"-->"` (causal-forward), `"<--"` (causal-backward), `"| |"` (parallel),
`" # "` (independent). -/
inductive Rel where
  | fwd
  | bwd
  | par
  | indep
deriving DecidableEq

/-- A Python value stored under the `count` key of a trace's metrics:
either an `int` (so `isinstance(qty, int)` holds) or some non-integer
value carried as its printed form. -/
inductive CountVal where
  | intVal (z : Int)
  | nonIntVal (s : String)
deriving DecidableEq

abbrev Activity := String

abbrev Trace := List Activity

/-- An edge of the directly-follows relation: an ordered activity pair. -/
abbrev Edge := Activity × Activity

/-- The directly-follows relation, a Python dict from edge to count. -/
abbrev DFRel := List (Edge × Int)

/-- The footprint matrix, a Python dict from edge to relation symbol. -/
abbrev Footprint := List (Edge × Rel)

/-- A trace dictionary as consumed by `compute_directly_follows`: each trace
is paired with the optional value of its metrics dict under `count`
(`none` models a missing key). -/
abbrev TraceDict := List (Trace × Option CountVal)

/-- Dict lookup in a directly-follows relation (`directly_follows.get(pair)`). -/
def dfLookup : DFRel → Edge → Option Int
  | [], _ => none
  | e :: rest, p => if e.1 = p then some e.2 else dfLookup rest p

/-- Key membership test (`pair in directly_follows`). -/
def dfHas (df : DFRel) (p : Edge) : Bool := (dfLookup df p).isSome

/-- `directly_follows[pair] = directly_follows.get(pair, 0) + qty`:
updates the entry if the key is present, appends it otherwise. -/
def dfAdd : DFRel → Edge → Int → DFRel
  | [], p, q => [(p, q)]
  | e :: rest, p, q => if e.1 = p then (e.1, e.2 + q) :: rest else e :: dfAdd rest p q

/-- Dict lookup in a footprint matrix (`footprint_matrix.get((a, b))`). -/
def fpLookup : Footprint → Edge → Option Rel
  | [], _ => none
  | e :: rest, p => if e.1 = p then some e.2 else fpLookup rest p

/-- Lookup with the default used by `is_independent_set`:
`footprint_matrix.get((a, b), ' # ')`. -/
def fpGetD (fp : Footprint) (p : Edge) : Rel := (fpLookup fp p).getD .indep

/-- `read_log_file`, from the point where the per-case traces exist
(lines 48-50 of `alpha_algo_app.py`): each distinct trace is mapped to its
number of occurrences and to that count divided by the total number of
cases (`len(df_grouped)`). The CSV parsing and per-case grouping that
produce `cases` are the ingestion boundary. -/
def read_log_file (cases : List Trace) : List (Trace × ℕ × ℚ) :=
  cases.dedup.map (fun t => (t, cases.count t, (cases.count t : ℚ) / (cases.length : ℚ)))

/-- The minimum-frequency filter applied in `start_analyser` of
`frontend_streamlit_app.py` (line 169):
`{trace: info for trace, info in traces_dict.items() if info['frequency'] >= min_frequency}`. -/
def filter_min_frequency (td : List (Trace × ℕ × ℚ)) (minFreq : ℚ) : List (Trace × ℕ × ℚ) :=
  td.filter (fun e => decide (minFreq ≤ e.2.2))

/-- `identify_initial_and_final_events`: the set of first activities and the
set of last activities of the traces, returned as lists. -/
def identify_initial_and_final_events (td : TraceDict) : List Activity × List Activity :=
  ((td.map (fun x => x.1.head?.getD "")).dedup, (td.map (fun x => x.1.getLast?.getD "")).dedup)

/-- One iteration of the loop body of `compute_directly_follows` for a trace
with validated integer count `q`: the start edge when the first activity is a
start event, every consecutive pair, and the end edge when the last activity
is an end event. -/
def procTrace (starts ends : List Activity) (df : DFRel) (t : Trace) (q : Int) : DFRel :=
  let df1 := if t.head?.getD "" ∈ starts then dfAdd df ("start", t.head?.getD "") q else df
  let df2 := (t.zip t.tail).foldl (fun d p => dfAdd d p q) df1
  if t.getLast?.getD "" ∈ ends then dfAdd df2 (t.getLast?.getD "", "end") q else df2

/-- The entry loop of `compute_directly_follows`: `qty = metrics.get('count', 0)`,
then `raise ValueError` (carrying the offending trace and the bad value) if
`qty` is not an `int`, otherwise accumulate the trace's edges. -/
def computeDFAux : TraceDict → List Activity → List Activity → DFRel →
    Except (Trace × String) DFRel
  | [], _, _, df => .ok df
  | (t, cv) :: rest, s, e, df =>
    match cv.getD (.intVal 0) with
    | .nonIntVal v => .error (t, v)
    | .intVal q => computeDFAux rest s e (procTrace s e df t q)

/-- `compute_directly_follows`: builds the weighted directly-follows dict from
an empty dict, failing on the first non-integer count. -/
def compute_directly_follows (td : TraceDict) (starts ends : List Activity) :
    Except (Trace × String) DFRel :=
  computeDFAux td starts ends []

/-- The real (non-sentinel) activities occurring anywhere in the
directly-follows relation, as built by the two set comprehensions at the top
of `create_footprint`. -/
def fpActivities (df : DFRel) : List Activity :=
  (((df.map (fun e => e.1.1)).filter (fun a => decide (a ≠ "start" ∧ a ≠ "end"))) ++
    ((df.map (fun e => e.1.2)).filter (fun b => decide (b ≠ "start" ∧ b ≠ "end")))).dedup

/-- The symbol `create_footprint` assigns to the ordered pair `(a, b)`. -/
def classifyPair (df : DFRel) (a b : Activity) : Rel :=
  if a = b then (if dfHas df (a, a) then .par else .indep)
  else if dfHas df (a, b) && dfHas df (b, a) then .par
  else if dfHas df (a, b) then .fwd
  else if dfHas df (b, a) then .bwd
  else .indep

/-- `create_footprint`: one entry per ordered pair of real activities,
classified by the four-way policy. -/
def create_footprint (df : DFRel) : Footprint :=
  (fpActivities df).flatMap (fun a =>
    (fpActivities df).map (fun b => ((a, b), classifyPair df a b)))

/-- The pairwise check of `is_independent_set` for one ordered pair
`(a, b)` with `i < j`: both directions must read ` # `
(with ` # ` as the default for a missing entry). -/
def indepPair (fp : Footprint) (a b : Activity) : Bool :=
  fpGetD fp (a, b) == Rel.indep && fpGetD fp (b, a) == Rel.indep

/-- `is_independent_set`: the double loop over index pairs `i < j`. -/
def is_independent_set (fp : Footprint) : List Activity → Bool
  | [] => true
  | a :: rest => rest.all (indepPair fp a) && is_independent_set fp rest

/-- The events occurring in the footprint matrix
(`{a for (a, b) in keys} | {b for (a, b) in keys}`). -/
def fpEvents (fp : Footprint) : List Activity :=
  ((fp.map (fun e => e.1.1)) ++ (fp.map (fun e => e.1.2))).dedup

/-- `find_independent_sets`: every nonempty subset of the event set that
passes `is_independent_set`, each collected as a Python `set`. -/
def find_independent_sets (fp : Footprint) : List (Finset Activity) :=
  (((fpEvents fp).sublists).filter
    (fun s => !s.isEmpty && is_independent_set fp s)).map List.toFinset

/-- `check_relationship` on two sets: the set of symbols gathered over all
cross pairs; its unique element if there is exactly one, `None` otherwise
(a missing matrix entry contributes `None`, which then fails the
membership test in `find_transitions`). The unique element of a singleton
over the five-element type `Option Rel` is found by testing each value. -/
def crossRels (fp : Footprint) (A B : Finset Activity) : Finset (Option Rel) :=
  (A ×ˢ B).image (fun p => fpLookup fp p)

def check_relationship (fp : Footprint) (A B : Finset Activity) : Option Rel :=
  if crossRels fp A B = {some .fwd} then some .fwd
  else if crossRels fp A B = {some .bwd} then some .bwd
  else if crossRels fp A B = {some .par} then some .par
  else if crossRels fp A B = {some .indep} then some .indep
  else none

/-- `itertools.combinations(l, 2)`: every pair of positions `i < j`. -/
def pairsOf : List α → List (α × α)
  | [] => []
  | x :: xs => (xs.map (fun y => (x, y))) ++ pairsOf xs

/-- The loop body of `find_transitions` for one unordered set pair:
record it as-is for `-->` and `| |`, reversed as `-->` for `<--`,
nothing otherwise. -/
def transitionOf (fp : Footprint) (q : Finset Activity × Finset Activity) :
    Option ((Finset Activity × Finset Activity) × Rel) :=
  match check_relationship fp q.1 q.2 with
  | some .fwd => some ((q.1, q.2), .fwd)
  | some .par => some ((q.1, q.2), .par)
  | some .bwd => some ((q.2, q.1), .fwd)
  | _ => none

/-- `find_transitions` over `combinations(independent_sets, 2)`. -/
def find_transitions (fp : Footprint) (sets : List (Finset Activity)) :
    List ((Finset Activity × Finset Activity) × Rel) :=
  (pairsOf sets).filterMap (transitionOf fp)

/-- `deconstruct_subset`: the cross-pair coverage of a transition key,
`set(product(set1, set2))`. -/
def deconstruct_subset (k : Finset Activity × Finset Activity) : Finset Edge :=
  k.1 ×ˢ k.2

/-- The pairs a transition is indexed under in `map_pairs_to_sets`: its
coverage, augmented with the reversed pairs when its symbol is `| |`. -/
def augPairs (t : (Finset Activity × Finset Activity) × Rel) : Finset Edge :=
  if t.2 = Rel.par then deconstruct_subset t.1 ∪ (deconstruct_subset t.1).image Prod.swap
  else deconstruct_subset t.1

/-- `map_pairs_to_sets` read at one pair: the keys of every transition
indexed under that pair. -/
def pair_to_sets (ts : List ((Finset Activity × Finset Activity) × Rel)) (p : Edge) :
    List (Finset Activity × Finset Activity) :=
  (ts.filter (fun u => decide (p ∈ augPairs u))).map (fun u => u.1)

/-- The discard test of `filter_maximal_sets` for one transition: some pair of
its coverage is indexed under another key whose coverage contains all of its
own pairs. -/
def discardedB (ts : List ((Finset Activity × Finset Activity) × Rel))
    (t : (Finset Activity × Finset Activity) × Rel) : Bool :=
  decide (∃ p ∈ deconstruct_subset t.1, ∃ k ∈ pair_to_sets ts p,
    k ≠ t.1 ∧ deconstruct_subset t.1 ⊆ deconstruct_subset k)

/-- `filter_maximal_sets`: keep exactly the transitions the discard test
leaves in `maximal_sets`. -/
def filter_maximal_sets (ts : List ((Finset Activity × Finset Activity) × Rel)) :
    List ((Finset Activity × Finset Activity) × Rel) :=
  ts.filter (fun t => !discardedB ts t)

/-- The trace dictionary of the end-to-end scenario:
`(a,b,c,d): 3`, `(a,c,b,d): 2`, `(a,e,d): 1`. -/
def exTraceDict : TraceDict :=
  [(["a", "b", "c", "d"], some (.intVal 3)),
   (["a", "c", "b", "d"], some (.intVal 2)),
   (["a", "e", "d"], some (.intVal 1))]

/-- The directly-follows relation computed for the scenario. -/
def exDF : DFRel := (compute_directly_follows exTraceDict ["a"] ["d"]).toOption.getD []

/-- The footprint matrix computed for the scenario. -/
def exFootprint : Footprint := create_footprint exDF

/-- The independent sets computed for the scenario. -/
def exIndepSets : List (Finset Activity) := find_independent_sets exFootprint

/-! ### Lemmas about the directly-follows dictionary -/

theorem dfLookup_dfAdd_self (df : DFRel) (p : Edge) (q : Int) :
    dfLookup (dfAdd df p q) p = some ((dfLookup df p).getD 0 + q) := by
  induction df with
  | nil => simp [dfAdd, dfLookup]
  | cons e rest ih =>
    by_cases h1 : e.1 = p
    · simp [dfAdd, dfLookup, h1]
    · simp [dfAdd, dfLookup, h1, ih]

theorem dfLookup_dfAdd_other (df : DFRel) (p : Edge) (q : Int) (p2 : Edge)
    (h : p2 ≠ p) :
    dfLookup (dfAdd df p q) p2 = dfLookup df p2 := by
  induction df with
  | nil =>
    simp only [dfAdd, dfLookup]
    rw [if_neg (fun h2 => h h2.symm)]
  | cons e rest ih =>
    by_cases h1 : e.1 = p
    · have h2 : ¬ e.1 = p2 := by rw [h1]; exact fun hc => h hc.symm
      have h3 : ¬ p = p2 := fun hc => h hc.symm
      simp [dfAdd, dfLookup, h1, h2, h, h3]
    · by_cases h2 : e.1 = p2
      · simp [dfAdd, dfLookup, h1, h2, h]
      · simp [dfAdd, dfLookup, h1, h2, h, ih]

theorem dfHas_dfAdd (df : DFRel) (p : Edge) (q : Int) (p2 : Edge) :
    dfHas (dfAdd df p q) p2 = true ↔ p2 = p ∨ dfHas df p2 = true := by
  by_cases h : p2 = p
  · subst h; simp [dfHas, dfLookup_dfAdd_self]
  · simp [dfHas, dfLookup_dfAdd_other df p q p2 h, h]

theorem dfHas_iff_exists (df : DFRel) (p : Edge) :
    dfHas df p = true ↔ ∃ v, (p, v) ∈ df := by
  induction df with
  | nil => simp [dfHas, dfLookup]
  | cons e rest ih =>
    by_cases h : e.1 = p
    · simp [dfHas, dfLookup, h]
      exact ⟨e.2, Or.inl (by rw [← h])⟩
    · simp [dfHas, dfLookup, h] at ih ⊢
      rw [ih]
      constructor
      · rintro ⟨v, hv⟩; exact ⟨v, Or.inr hv⟩
      · rintro ⟨v, hv | hv⟩
        · exact absurd (congrArg Prod.fst hv.symm) h
        · exact ⟨v, hv⟩

theorem dfHas_foldl_of (l : List Edge) (q : Int) (p : Edge) :
    ∀ df : DFRel, dfHas df p = true →
      dfHas (l.foldl (fun d pr => dfAdd d pr q) df) p = true := by
  induction l with
  | nil => exact fun _ h => h
  | cons x xs ih =>
    exact fun df h => ih (dfAdd df x q) ((dfHas_dfAdd df x q p).mpr (Or.inr h))

theorem dfHas_foldl_mem (l : List Edge) (q : Int) (p : Edge) (h : p ∈ l) :
    ∀ df : DFRel, dfHas (l.foldl (fun d pr => dfAdd d pr q) df) p = true := by
  induction l with
  | nil => cases h
  | cons x xs ih =>
    intro df
    rcases List.mem_cons.mp h with h2 | h2
    · subst h2
      exact dfHas_foldl_of xs q p _ ((dfHas_dfAdd df p q p).mpr (Or.inl rfl))
    · exact ih h2 (dfAdd df x q)

theorem dfHas_ite_dfAdd (c : Prop) [Decidable c] (df : DFRel) (p2 : Edge) (q : Int)
    (p : Edge) (h : dfHas df p = true) :
    dfHas (if c then dfAdd df p2 q else df) p = true := by
  split
  · exact (dfHas_dfAdd df p2 q p).mpr (Or.inr h)
  · exact h

theorem procTrace_mono (s e : List Activity) (df : DFRel) (t : Trace) (q : Int)
    (p : Edge) (h : dfHas df p = true) :
    dfHas (procTrace s e df t q) p = true := by
  unfold procTrace
  exact dfHas_ite_dfAdd _ _ _ _ _ (dfHas_foldl_of _ _ _ _ (dfHas_ite_dfAdd _ _ _ _ _ h))

theorem procTrace_has_pair (s e : List Activity) (df : DFRel) (t : Trace) (q : Int)
    (p : Edge) (hp : p ∈ t.zip t.tail) :
    dfHas (procTrace s e df t q) p = true := by
  unfold procTrace
  exact dfHas_ite_dfAdd _ _ _ _ _ (dfHas_foldl_mem _ _ _ hp _)

theorem procTrace_has_start (s e : List Activity) (df : DFRel) (t : Trace) (q : Int)
    (hs : t.head?.getD "" ∈ s) :
    dfHas (procTrace s e df t q) ("start", t.head?.getD "") = true := by
  unfold procTrace
  refine dfHas_ite_dfAdd _ _ _ _ _ (dfHas_foldl_of _ _ _ _ ?_)
  simp only [if_pos hs]
  exact (dfHas_dfAdd _ _ _ _).mpr (Or.inl rfl)

theorem procTrace_has_end (s e : List Activity) (df : DFRel) (t : Trace) (q : Int)
    (he : t.getLast?.getD "" ∈ e) :
    dfHas (procTrace s e df t q) (t.getLast?.getD "", "end") = true := by
  unfold procTrace
  simp only [if_pos he]
  exact (dfHas_dfAdd _ _ _ _).mpr (Or.inl rfl)

/-- When every count is an `int` (or the key is missing), the loop of
`compute_directly_follows` succeeds and the result contains every edge each
trace contributes. -/
theorem computeDFAux_ok (td : TraceDict) (s e : List Activity)
    (h : ∀ x ∈ td, x.2 = none ∨ ∃ z, x.2 = some (.intVal z)) :
    ∀ df : DFRel, ∃ df2, computeDFAux td s e df = .ok df2 ∧
      (∀ p, dfHas df p = true → dfHas df2 p = true) ∧
      (∀ x ∈ td,
        (∀ p ∈ x.1.zip x.1.tail, dfHas df2 p = true) ∧
        (x.1.head?.getD "" ∈ s → dfHas df2 ("start", x.1.head?.getD "") = true) ∧
        (x.1.getLast?.getD "" ∈ e → dfHas df2 (x.1.getLast?.getD "", "end") = true)) := by
  induction td with
  | nil => exact fun df => ⟨df, rfl, fun _ hp => hp, by simp⟩
  | cons x rest ih =>
    intro df
    obtain ⟨t, cv⟩ := x
    have hq : ∃ q, cv.getD (.intVal 0) = .intVal q := by
      rcases h (t, cv) (List.mem_cons_self _ _) with h0 | ⟨z, h0⟩
      · have h0b : cv = none := h0
        exact ⟨0, by simp [h0b]⟩
      · have h0b : cv = some (.intVal z) := h0
        exact ⟨z, by simp [h0b]⟩
    obtain ⟨q, hq⟩ := hq
    obtain ⟨df2, hok, hmono, hall⟩ :=
      ih (fun y hy => h y (List.mem_cons_of_mem _ hy)) (procTrace s e df t q)
    refine ⟨df2, ?_, ?_, ?_⟩
    · simp only [computeDFAux, hq]; exact hok
    · exact fun p hp => hmono p (procTrace_mono s e df t q p hp)
    · intro y hy
      rcases List.mem_cons.mp hy with hy | hy
      · subst hy
        exact ⟨fun p hp => hmono p (procTrace_has_pair s e df t q p hp),
          fun hs => hmono _ (procTrace_has_start s e df t q hs),
          fun he => hmono _ (procTrace_has_end s e df t q he)⟩
      · exact hall y hy

theorem computeDFAux_error_iff (td : TraceDict) (s e : List Activity) :
    ∀ df : DFRel, (∃ err, computeDFAux td s e df = .error err) ↔
      ∃ x ∈ td, ∃ v, x.2 = some (.nonIntVal v) := by
  induction td with
  | nil => intro df; simp [computeDFAux]
  | cons x rest ih =>
    intro df
    obtain ⟨t, cv⟩ := x
    match cv with
    | none =>
      have hstep : computeDFAux ((t, none) :: rest) s e df =
          computeDFAux rest s e (procTrace s e df t 0) := rfl
      rw [hstep, ih (procTrace s e df t 0)]
      constructor
      · rintro ⟨x, hx, hv⟩; exact ⟨x, List.mem_cons_of_mem _ hx, hv⟩
      · rintro ⟨x, hx, hv⟩
        rcases List.mem_cons.mp hx with h2 | h2
        · subst h2; simp at hv
        · exact ⟨x, h2, hv⟩
    | some (.intVal z) =>
      have hstep : computeDFAux ((t, some (CountVal.intVal z)) :: rest) s e df =
          computeDFAux rest s e (procTrace s e df t z) := rfl
      rw [hstep, ih (procTrace s e df t z)]
      constructor
      · rintro ⟨x, hx, hv⟩; exact ⟨x, List.mem_cons_of_mem _ hx, hv⟩
      · rintro ⟨x, hx, hv⟩
        rcases List.mem_cons.mp hx with h2 | h2
        · subst h2; simp at hv
        · exact ⟨x, h2, hv⟩
    | some (.nonIntVal v) =>
      have hstep : computeDFAux ((t, some (CountVal.nonIntVal v)) :: rest) s e df =
          .error (t, v) := rfl
      rw [hstep]
      constructor
      · exact fun _ => ⟨(t, some (.nonIntVal v)), List.mem_cons_self _ _, v, rfl⟩
      · exact fun _ => ⟨(t, v), rfl⟩

theorem computeDFAux_error_mem (td : TraceDict) (s e : List Activity)
    (tr : Trace) (v : String) :
    ∀ df : DFRel, computeDFAux td s e df = .error (tr, v) →
      (tr, some (.nonIntVal v)) ∈ td := by
  induction td with
  | nil => intro df herr; simp [computeDFAux] at herr
  | cons x rest ih =>
    intro df herr
    obtain ⟨t, cv⟩ := x
    match cv with
    | none => exact List.mem_cons_of_mem _ (ih (procTrace s e df t 0) herr)
    | some (.intVal z) => exact List.mem_cons_of_mem _ (ih (procTrace s e df t z) herr)
    | some (.nonIntVal v2) =>
      have hstep : computeDFAux ((t, some (CountVal.nonIntVal v2)) :: rest) s e df =
          .error (t, v2) := rfl
      rw [hstep] at herr
      obtain ⟨h1, h2⟩ : t = tr ∧ v2 = v := by simpa using herr
      subst h1; subst h2
      exact List.mem_cons_self _ _

/-! ### Lemmas about the footprint matrix -/

theorem fpLookup_append_some (l1 l2 : Footprint) (p : Edge) (r : Rel)
    (h : fpLookup l1 p = some r) : fpLookup (l1 ++ l2) p = some r := by
  induction l1 with
  | nil => simp [fpLookup] at h
  | cons e rest ih =>
    by_cases h1 : e.1 = p
    · simp [fpLookup, h1] at h ⊢; exact h
    · simp [fpLookup, h1] at h ⊢; exact ih h

theorem fpLookup_append_none (l1 l2 : Footprint) (p : Edge)
    (h : fpLookup l1 p = none) : fpLookup (l1 ++ l2) p = fpLookup l2 p := by
  induction l1 with
  | nil => rfl
  | cons e rest ih =>
    by_cases h1 : e.1 = p
    · simp [fpLookup, h1] at h
    · simp [fpLookup, h1] at h ⊢; exact ih h

theorem fpLookup_block (a : Activity) (f : Activity → Rel) (m : List Activity)
    (x y : Activity) :
    fpLookup (m.map (fun b => ((a, b), f b))) (x, y) =
      if x = a ∧ y ∈ m then some (f y) else none := by
  induction m with
  | nil => simp [fpLookup]
  | cons b t ih =>
    by_cases hp : ((a, b) : Edge) = (x, y)
    · obtain ⟨hx, hy⟩ : a = x ∧ b = y := by simpa [Prod.ext_iff] using hp
      subst hx; subst hy
      simp [fpLookup]
    · have hstep : fpLookup ((b :: t).map (fun c => ((a, c), f c))) (x, y) =
          fpLookup (t.map (fun c => ((a, c), f c))) (x, y) := by
        simp [fpLookup, hp]
      rw [hstep, ih]
      by_cases hx : x = a
      · have hy : ¬ y = b := fun hc => hp (by rw [hx, hc])
        simp [hx, List.mem_cons, hy]
      · simp [hx]

theorem fpLookup_flatMap (l m : List Activity) (f : Activity → Activity → Rel)
    (x y : Activity) :
    fpLookup (l.flatMap (fun a => m.map (fun b => ((a, b), f a b)))) (x, y) =
      if x ∈ l ∧ y ∈ m then some (f x y) else none := by
  induction l with
  | nil => simp [fpLookup]
  | cons a t ih =>
    rw [List.flatMap_cons]
    by_cases hx : x = a
    · subst hx
      by_cases hy : y ∈ m
      · rw [fpLookup_append_some _ _ _ (f x y)
          (by rw [fpLookup_block]; simp [hy])]
        simp [hy]
      · rw [fpLookup_append_none _ _ _ (by rw [fpLookup_block]; simp [hy]), ih]
        simp [hy]
    · rw [fpLookup_append_none _ _ _ (by rw [fpLookup_block]; simp [hx]), ih]
      simp [List.mem_cons, hx]

theorem fpLookup_create_footprint (df : DFRel) (x y : Activity) :
    fpLookup (create_footprint df) (x, y) =
      if x ∈ fpActivities df ∧ y ∈ fpActivities df
      then some (classifyPair df x y) else none := by
  unfold create_footprint
  exact fpLookup_flatMap _ _ _ x y

theorem mem_fpActivities (df : DFRel) (x : Activity) :
    x ∈ fpActivities df ↔
      (x ≠ "start" ∧ x ≠ "end") ∧ ∃ e ∈ df, e.1.1 = x ∨ e.1.2 = x := by
  unfold fpActivities
  simp only [List.mem_dedup, List.mem_append, List.mem_filter, List.mem_map,
    decide_eq_true_eq]
  constructor
  · rintro (⟨⟨e, he, hx⟩, hs⟩ | ⟨⟨e, he, hx⟩, hs⟩)
    · exact ⟨hs, e, he, Or.inl hx⟩
    · exact ⟨hs, e, he, Or.inr hx⟩
  · rintro ⟨hs, e, he, hx | hx⟩
    · exact Or.inl ⟨⟨e, he, hx⟩, hs⟩
    · exact Or.inr ⟨⟨e, he, hx⟩, hs⟩

/-- The classification policy written with propositional conditions, as the
specification states it. -/
theorem classifyPair_eq_table (df : DFRel) (a b : Activity) :
    classifyPair df a b =
      (if a = b then (if dfHas df (a, a) = true then Rel.par else Rel.indep)
       else if dfHas df (a, b) = true ∧ dfHas df (b, a) = true then Rel.par
       else if dfHas df (a, b) = true then Rel.fwd
       else if dfHas df (b, a) = true then Rel.bwd
       else Rel.indep) := by
  by_cases hab : a = b
  · simp [classifyPair, hab]
  · cases h1 : dfHas df (a, b) <;> cases h2 : dfHas df (b, a) <;>
      simp [classifyPair, hab, h1, h2]

theorem classifyPair_fwd_iff (df : DFRel) (a b : Activity) :
    classifyPair df a b = .fwd ↔ classifyPair df b a = .bwd := by
  by_cases hab : a = b
  · subst hab
    cases h1 : dfHas df (a, a) <;> simp [classifyPair, h1]
  · have hba : ¬ b = a := fun hc => hab hc.symm
    cases h1 : dfHas df (a, b) <;> cases h2 : dfHas df (b, a) <;>
      simp [classifyPair, hab, hba, h1, h2]

theorem classifyPair_par_iff (df : DFRel) (a b : Activity) :
    classifyPair df a b = .par ↔ classifyPair df b a = .par := by
  by_cases hab : a = b
  · subst hab; simp
  · have hba : ¬ b = a := fun hc => hab hc.symm
    cases h1 : dfHas df (a, b) <;> cases h2 : dfHas df (b, a) <;>
      simp [classifyPair, hab, hba, h1, h2]

theorem classifyPair_indep_iff (df : DFRel) (a b : Activity) :
    classifyPair df a b = .indep ↔ classifyPair df b a = .indep := by
  by_cases hab : a = b
  · subst hab; simp
  · have hba : ¬ b = a := fun hc => hab hc.symm
    cases h1 : dfHas df (a, b) <;> cases h2 : dfHas df (b, a) <;>
      simp [classifyPair, hab, hba, h1, h2]

theorem fst_mem_of_mem_pairs_flatMap (l m : List Activity) (p : Edge)
    (hp : p ∈ l.flatMap (fun a => m.map (fun b => ((a : Activity), b)))) :
    p.1 ∈ l := by
  simp only [List.mem_flatMap, List.mem_map] at hp
  obtain ⟨a, ha, b, _, hab⟩ := hp
  rw [← hab]
  exact ha

theorem nodup_pairs_flatMap (l m : List Activity) (hl : l.Nodup) (hm : m.Nodup) :
    (l.flatMap (fun a => m.map (fun b => ((a : Activity), b)))).Nodup := by
  induction l with
  | nil => simp
  | cons a t ih =>
    rw [List.flatMap_cons]
    obtain ⟨hat, ht⟩ := List.nodup_cons.mp hl
    refine List.Nodup.append ?_ (ih ht) ?_
    · exact hm.map (fun b1 b2 h => (Prod.mk.injEq .. ▸ h).2)
    · intro p hp1 hp2
      have h1 : p.1 = a := by
        simp only [List.mem_map] at hp1
        obtain ⟨b, _, hb⟩ := hp1
        rw [← hb]
      exact hat (h1 ▸ fst_mem_of_mem_pairs_flatMap t m p hp2)

theorem fpActivities_nodup (df : DFRel) : (fpActivities df).Nodup :=
  List.nodup_dedup _

/-- C1. For every ordered pair of real (non-sentinel) activities appearing
anywhere in the directly-follows relation, `create_footprint` assigns exactly
one of the four symbols according to the policy table (self pairs: parallel
when the self edge is present, independent otherwise; distinct pairs:
parallel when both directions are present, causal-forward when only the
forward edge is, causal-backward when only the backward edge is, independent
when neither is), and the sentinel labels `start` and `end` never occur in
the footprint's domain. -/
theorem c1_footprint_policy (df : DFRel) :
    (∀ a b : Activity,
      ((a ≠ "start" ∧ a ≠ "end") ∧ ∃ e ∈ df, e.1.1 = a ∨ e.1.2 = a) →
      ((b ≠ "start" ∧ b ≠ "end") ∧ ∃ e ∈ df, e.1.1 = b ∨ e.1.2 = b) →
      fpLookup (create_footprint df) (a, b) =
        some (if a = b then (if dfHas df (a, a) = true then Rel.par else Rel.indep)
          else if dfHas df (a, b) = true ∧ dfHas df (b, a) = true then Rel.par
          else if dfHas df (a, b) = true then Rel.fwd
          else if dfHas df (b, a) = true then Rel.bwd
          else Rel.indep)) ∧
    (∀ p r, (p, r) ∈ create_footprint df →
      p.1 ≠ "start" ∧ p.1 ≠ "end" ∧ p.2 ≠ "start" ∧ p.2 ≠ "end") ∧
    ((create_footprint df).map (fun e => e.1)).Nodup := by
  refine ⟨?_, ?_, ?_⟩
  · intro a b ha hb
    rw [fpLookup_create_footprint,
      if_pos ⟨(mem_fpActivities df a).mpr ha, (mem_fpActivities df b).mpr hb⟩,
      classifyPair_eq_table]
  · intro p r hm
    unfold create_footprint at hm
    simp only [List.mem_flatMap, List.mem_map] at hm
    obtain ⟨a, ha, b, hb, hab⟩ := hm
    have hp : p = (a, b) := by
      have := congrArg Prod.fst hab
      simpa using this.symm
    subst hp
    obtain ⟨⟨ha1, ha2⟩, _⟩ := (mem_fpActivities df a).mp ha
    obtain ⟨⟨hb1, hb2⟩, _⟩ := (mem_fpActivities df b).mp hb
    exact ⟨ha1, ha2, hb1, hb2⟩
  · have hkeys : (create_footprint df).map (fun e => e.1) =
        (fpActivities df).flatMap
          (fun a => (fpActivities df).map (fun b => ((a : Activity), b))) := by
      simp [create_footprint, List.map_flatMap, List.map_map]
      rfl
    rw [hkeys]
    exact nodup_pairs_flatMap _ _ (fpActivities_nodup df) (fpActivities_nodup df)

/-- C2. The footprint matrix produced by `create_footprint` is symmetric:
causal-forward at `(a, b)` exactly when causal-backward at `(b, a)`, and the
parallel and independent symbols are symmetric. -/
theorem c2_footprint_symmetry (df : DFRel) (a b : Activity) :
    (fpLookup (create_footprint df) (a, b) = some .fwd ↔
      fpLookup (create_footprint df) (b, a) = some .bwd) ∧
    (fpLookup (create_footprint df) (a, b) = some .par ↔
      fpLookup (create_footprint df) (b, a) = some .par) ∧
    (fpLookup (create_footprint df) (a, b) = some .indep ↔
      fpLookup (create_footprint df) (b, a) = some .indep) := by
  rw [fpLookup_create_footprint df a b, fpLookup_create_footprint df b a]
  by_cases hmem : a ∈ fpActivities df ∧ b ∈ fpActivities df
  · have hmem2 : b ∈ fpActivities df ∧ a ∈ fpActivities df := ⟨hmem.2, hmem.1⟩
    simp only [if_pos hmem, if_pos hmem2, Option.some.injEq]
    exact ⟨classifyPair_fwd_iff df a b, classifyPair_par_iff df a b,
      classifyPair_indep_iff df a b⟩
  · have hmem2 : ¬ (b ∈ fpActivities df ∧ a ∈ fpActivities df) :=
      fun h => hmem ⟨h.2, h.1⟩
    simp [if_neg hmem, if_neg hmem2]

/-- Witness for C1 at a concrete one-edge relation. -/
theorem c1_footprint_policy_witness :
    fpLookup (create_footprint [(("a", "b"), 1)]) ("a", "b") = some Rel.fwd := by
  have h := (c1_footprint_policy [(("a", "b"), 1)]).1 "a" "b"
    (by decide) (by decide)
  rw [h]
  decide

/-! ### C6, C9: count validation in compute_directly_follows -/

/-- C6 (amended). `compute_directly_follows` fails with a validation error if
and only if some trace's count value is present and is not an integer; the
error identifies the offending trace (and the bad value). Zero and negative
integer counts, and a missing count (treated as 0), are accepted without
error. -/
theorem c6_count_validation (td : TraceDict) (s e : List Activity)
    (htr : ∀ x ∈ td, x.1 ≠ []) :
    ((∃ err, compute_directly_follows td s e = .error err) ↔
      ∃ x ∈ td, ∃ v, x.2 = some (.nonIntVal v)) ∧
    (∀ tr v, compute_directly_follows td s e = .error (tr, v) →
      (tr, some (.nonIntVal v)) ∈ td) := by
  refine ⟨computeDFAux_error_iff td s e [], ?_⟩
  exact fun tr v hv => computeDFAux_error_mem td s e tr v [] hv

/-- Witness for C6 at a dictionary holding one non-integer count. -/
theorem c6_count_validation_witness :
    ∃ err, compute_directly_follows [(["x"], some (.nonIntVal "2.5"))] ["x"] ["x"] =
      .error err := by
  refine ((c6_count_validation [(["x"], some (.nonIntVal "2.5"))] ["x"] ["x"]
    (by decide)).1).mpr ?_
  exact ⟨(["x"], some (.nonIntVal "2.5")), List.mem_cons_self _ _, "2.5", rfl⟩

/-- C6 counterexample: the claim requires a zero (non-positive) count to
abort, but the code accepts it and silently uses weight 0. -/
theorem c6_zero_count_accepted :
    compute_directly_follows [(["t1"], some (.intVal 0))] ["t1"] ["t1"] =
      .ok [(("start", "t1"), 0), (("t1", "end"), 0)] := rfl

/-- C9. A missing `count` key is treated as 0 and raises no error; with every
count an accepted integer, each trace's boundary and consecutive-pair edges
are inserted as keys of the directly-follows relation, each `dfAdd` adds
exactly the trace's count to the stored weight, and any inserted real pair is
never classified independent by `create_footprint`. -/
theorem c9_missing_count_zero_weight (td : TraceDict) (s e : List Activity)
    (h : ∀ x ∈ td, x.2 = none ∨ ∃ z, x.2 = some (.intVal z)) :
    (∃ df, compute_directly_follows td s e = .ok df ∧
      (∀ x ∈ td, (∀ p ∈ x.1.zip x.1.tail, dfHas df p = true) ∧
        (x.1.head?.getD "" ∈ s → dfHas df ("start", x.1.head?.getD "") = true) ∧
        (x.1.getLast?.getD "" ∈ e → dfHas df (x.1.getLast?.getD "", "end") = true)) ∧
      (∀ a b : Activity, dfHas df (a, b) = true →
        a ≠ "start" → a ≠ "end" → b ≠ "start" → b ≠ "end" →
        fpLookup (create_footprint df) (a, b) ≠ some .indep)) ∧
    (∀ t rest, compute_directly_follows ((t, none) :: rest) s e =
      compute_directly_follows ((t, some (.intVal 0)) :: rest) s e) ∧
    (∀ (df0 : DFRel) (p : Edge) (q : Int),
      dfLookup (dfAdd df0 p q) p = some ((dfLookup df0 p).getD 0 + q)) := by
  refine ⟨?_, fun t rest => rfl, dfLookup_dfAdd_self⟩
  obtain ⟨df, hok, _, hall⟩ := computeDFAux_ok td s e h []
  refine ⟨df, hok, hall, ?_⟩
  intro a b hab ha1 ha2 hb1 hb2
  obtain ⟨v, hv⟩ := (dfHas_iff_exists df (a, b)).mp hab
  have ha : a ∈ fpActivities df :=
    (mem_fpActivities df a).mpr ⟨⟨ha1, ha2⟩, ((a, b), v), hv, Or.inl rfl⟩
  have hb : b ∈ fpActivities df :=
    (mem_fpActivities df b).mpr ⟨⟨hb1, hb2⟩, ((a, b), v), hv, Or.inr rfl⟩
  rw [fpLookup_create_footprint, if_pos ⟨ha, hb⟩]
  intro hc
  have hcls : classifyPair df a b = .indep := by simpa using hc
  by_cases hd : a = b
  · subst hd
    simp [classifyPair, hab] at hcls
  · cases h2 : dfHas df (b, a) <;> simp [classifyPair, hd, hab, h2] at hcls

/-- Witness for C9: a trace with a missing count still contributes its pair
as a key. -/
theorem c9_missing_count_zero_weight_witness :
    ∃ df, compute_directly_follows [(["a", "b"], none)] ["a"] ["b"] = .ok df ∧
      dfHas df ("a", "b") = true := by
  obtain ⟨⟨df, hok, hall, _⟩, _, _⟩ :=
    c9_missing_count_zero_weight [(["a", "b"], none)] ["a"] ["b"]
      (by intro x hx; rw [List.mem_singleton] at hx; subst hx; exact Or.inl rfl)
  refine ⟨df, hok, ?_⟩
  exact (hall (["a", "b"], none) (List.mem_cons_self _ _)).1 ("a", "b") (by decide)

/-! ### C7: the end-to-end scenario -/

set_option maxRecDepth 4000 in
/-- C7. On the trace dictionary (a,b,c,d): 3, (a,c,b,d): 2, (a,e,d): 1 the
pipeline yields initial activities a, final activities d, the listed
directly-follows counts, the listed footprint symbols, and an
independent-set list that contains the sets a d, b e, c e and all five
singletons but neither a b e nor b c e. -/
theorem c7_end_to_end :
    identify_initial_and_final_events exTraceDict = (["a"], ["d"])
    ∧ (compute_directly_follows exTraceDict ["a"] ["d"]).toOption = some exDF
    ∧ dfLookup exDF ("start", "a") = some 6
    ∧ dfLookup exDF ("a", "b") = some 3
    ∧ dfLookup exDF ("a", "c") = some 2
    ∧ dfLookup exDF ("a", "e") = some 1
    ∧ dfLookup exDF ("b", "c") = some 3
    ∧ dfLookup exDF ("c", "b") = some 2
    ∧ dfLookup exDF ("c", "d") = some 3
    ∧ dfLookup exDF ("b", "d") = some 2
    ∧ dfLookup exDF ("e", "d") = some 1
    ∧ dfLookup exDF ("d", "end") = some 6
    ∧ fpLookup exFootprint ("b", "c") = some .par
    ∧ fpLookup exFootprint ("a", "d") = some .indep
    ∧ fpLookup exFootprint ("b", "e") = some .indep
    ∧ fpLookup exFootprint ("c", "e") = some .indep
    ∧ fpLookup exFootprint ("a", "b") = some .fwd
    ∧ fpLookup exFootprint ("c", "d") = some .fwd
    ∧ fpLookup exFootprint ("e", "d") = some .fwd
    ∧ ({"a", "d"} : Finset Activity) ∈ exIndepSets
    ∧ ({"b", "e"} : Finset Activity) ∈ exIndepSets
    ∧ ({"c", "e"} : Finset Activity) ∈ exIndepSets
    ∧ ({"a"} : Finset Activity) ∈ exIndepSets
    ∧ ({"b"} : Finset Activity) ∈ exIndepSets
    ∧ ({"c"} : Finset Activity) ∈ exIndepSets
    ∧ ({"d"} : Finset Activity) ∈ exIndepSets
    ∧ ({"e"} : Finset Activity) ∈ exIndepSets
    ∧ ({"a", "b", "e"} : Finset Activity) ∉ exIndepSets
    ∧ ({"b", "c", "e"} : Finset Activity) ∉ exIndepSets := by
  refine ⟨by decide, by decide, ?_⟩
  decide

/-! ### C8, C10: trace dictionary conservation and the frequency filter -/

theorem trace_beq_eq (a b : Trace) : (a == b) = decide (a = b) := by
  by_cases h : a = b
  · subst h; simp
  · simp [h]

theorem count_inst_eq (t : Trace) (l : List Trace) :
    l.count t = @List.count Trace instBEqOfDecidableEq t l := by
  induction l with
  | nil => rfl
  | cons b l2 ih =>
    rw [List.count_cons, @List.count_cons Trace instBEqOfDecidableEq t b l2, ih,
      trace_beq_eq]
    rfl

theorem list_sum_map_div (l : List α) (f : α → ℚ) (c : ℚ) :
    (l.map (fun x => f x / c)).sum = (l.map f).sum / c := by
  induction l with
  | nil => simp
  | cons x t ih => simp [ih, add_div]

theorem list_sum_natCast (l : List ℕ) :
    ((l.sum : ℕ) : ℚ) = (l.map (fun n : ℕ => (n : ℚ))).sum := by
  induction l with
  | nil => simp
  | cons x t ih =>
    rw [List.map_cons, List.sum_cons, List.sum_cons, Nat.cast_add, ih]

/-- C8 (amended). For every event log with at least one case, the trace
dictionary maps each distinct trace to a count and a frequency with
frequency = count divided by the total number of cases, the counts sum to
the total number of cases, and the frequencies sum to 1. -/
theorem c8_trace_dictionary_conservation (cases : List Trace) (h : cases ≠ []) :
    (∀ x ∈ read_log_file cases, x.2.2 = (x.2.1 : ℚ) / (cases.length : ℚ)) ∧
    ((read_log_file cases).map (fun x => x.2.1)).sum = cases.length ∧
    ((read_log_file cases).map (fun x => x.2.2)).sum = 1 := by
  have hlen : ((cases.length : ℕ) : ℚ) ≠ 0 := by
    have := List.length_pos.mpr h
    exact_mod_cast Nat.pos_iff_ne_zero.mp this
  refine ⟨?_, ?_, ?_⟩
  · intro x hx
    simp only [read_log_file, List.mem_map] at hx
    obtain ⟨t, _, ht⟩ := hx
    rw [← ht]
  · rw [read_log_file, List.map_map]
    have hcomp :
        ((fun x : Trace × ℕ × ℚ => x.2.1) ∘
          (fun t => (t, cases.count t, (cases.count t : ℚ) / (cases.length : ℚ)))) =
        fun t => cases.count t := rfl
    rw [hcomp]
    simp only [count_inst_eq]
    exact List.sum_map_count_dedup_eq_length cases
  · rw [read_log_file, List.map_map]
    have hcomp :
        ((fun x : Trace × ℕ × ℚ => x.2.2) ∘
          (fun t => (t, cases.count t, (cases.count t : ℚ) / (cases.length : ℚ)))) =
        fun t => (cases.count t : ℚ) / (cases.length : ℚ) := rfl
    have hsplit : cases.dedup.map (fun t => ((cases.count t : ℕ) : ℚ)) =
        (cases.dedup.map (fun t => cases.count t)).map (fun n : ℕ => (n : ℚ)) := by
      rw [List.map_map]
      rfl
    rw [hcomp, list_sum_map_div, hsplit, ← list_sum_natCast]
    simp only [count_inst_eq]
    rw [List.sum_map_count_dedup_eq_length cases, div_self hlen]

/-- Witness for C8 at a one-case log. -/
theorem c8_trace_dictionary_conservation_witness :
    ((read_log_file [["x"]]).map (fun x => x.2.2)).sum = 1 :=
  (c8_trace_dictionary_conservation [["x"]] (by decide)).2.2

/-- C8 counterexample: on the empty event log the frequencies sum to 0, not
1, so the claim is false without the nonemptiness proviso. -/
theorem c8_empty_log_counterexample :
    ((read_log_file ([] : List Trace)).map (fun x => x.2.2)).sum ≠ 1 := by
  decide

theorem list_sum_filter_split (l : List α) (p : α → Bool) (f : α → ℚ) :
    ((l.filter p).map f).sum + ((l.filter (fun x => !p x)).map f).sum =
      (l.map f).sum := by
  induction l with
  | nil => simp
  | cons x t ih => cases hp : p x <;> simp [hp, ← ih] <;> ring

/-- C10. The minimum-frequency filter retains exactly the entries whose
frequency is at least the threshold, leaving each retained entry unchanged;
when the input frequencies sum to 1 and are all positive and at least one
entry is removed, the retained frequencies sum to strictly less than 1. -/
theorem c10_min_frequency_filter (td : List (Trace × ℕ × ℚ)) (m : ℚ) :
    (∀ x, x ∈ filter_min_frequency td m ↔ x ∈ td ∧ m ≤ x.2.2) ∧
    ((td.map (fun x => x.2.2)).sum = 1 → (∀ x ∈ td, 0 < x.2.2) →
      (∃ x ∈ td, x.2.2 < m) →
      ((filter_min_frequency td m).map (fun x => x.2.2)).sum < 1) := by
  constructor
  · intro x
    simp [filter_min_frequency, List.mem_filter]
  · intro hsum hpos hrem
    obtain ⟨x, hx, hlt⟩ := hrem
    have hsplit := list_sum_filter_split td (fun y => decide (m ≤ y.2.2))
      (fun y => y.2.2)
    have hxmem : x ∈ td.filter (fun y => !decide (m ≤ y.2.2)) :=
      List.mem_filter.mpr ⟨hx, by simp [not_le.mpr hlt]⟩
    have hnot : 0 < ((td.filter (fun y => !decide (m ≤ y.2.2))).map
        (fun y => y.2.2)).sum := by
      refine List.sum_pos _ ?_ ?_
      · intro y hy
        simp only [List.mem_map] at hy
        obtain ⟨z, hz, hzy⟩ := hy
        exact hzy ▸ hpos z (List.mem_filter.mp hz).1
      · exact List.ne_nil_of_mem (List.mem_map_of_mem _ hxmem)
    have : ((filter_min_frequency td m).map (fun y => y.2.2)).sum +
        ((td.filter (fun y => !decide (m ≤ y.2.2))).map (fun y => y.2.2)).sum =
        1 := by
      rw [filter_min_frequency]
      rw [hsplit]
      exact hsum
    linarith

/-- Witness for C10: a threshold that removes a trace leaves a total
frequency below 1. -/
theorem c10_min_frequency_filter_witness :
    ((filter_min_frequency
      [(["a"], 1, (1 : ℚ)/2), (["b"], 1, (1 : ℚ)/2)] (3/4)).map
      (fun x => x.2.2)).sum < 1 := by
  refine (c10_min_frequency_filter
    [(["a"], 1, (1 : ℚ)/2), (["b"], 1, (1 : ℚ)/2)] (3/4)).2 ?_ ?_ ?_
  · norm_num
  · intro x hx
    rcases List.mem_cons.mp hx with h1 | h1
    · rw [h1]; norm_num
    · rw [List.mem_singleton.mp h1]; norm_num
  · refine ⟨(["a"], 1, (1 : ℚ)/2), List.mem_cons_self _ _, by norm_num⟩

/-! ### C3: find_independent_sets -/

theorem indepPair_iff (fp : Footprint) (a b : Activity) :
    indepPair fp a b = true ↔
      fpGetD fp (a, b) = .indep ∧ fpGetD fp (b, a) = .indep := by
  simp [indepPair]

theorem is_independent_set_iff (fp : Footprint) (l : List Activity)
    (hnd : l.Nodup) :
    is_independent_set fp l = true ↔
      ∀ a ∈ l, ∀ b ∈ l, a ≠ b →
        fpGetD fp (a, b) = .indep ∧ fpGetD fp (b, a) = .indep := by
  induction l with
  | nil => simp [is_independent_set]
  | cons a t ih =>
    obtain ⟨hat, ht⟩ := List.nodup_cons.mp hnd
    have hstep : is_independent_set fp (a :: t) =
        (t.all (indepPair fp a) && is_independent_set fp t) := rfl
    rw [hstep, Bool.and_eq_true, List.all_eq_true, ih ht]
    constructor
    · rintro ⟨hhead, hrest⟩ x hx y hy hxy
      rcases List.mem_cons.mp hx with hx1 | hx1 <;>
        rcases List.mem_cons.mp hy with hy1 | hy1
      · exact absurd (hx1.trans hy1.symm) hxy
      · subst hx1; exact (indepPair_iff fp x y).mp (hhead y hy1)
      · subst hy1
        have h2 := (indepPair_iff fp y x).mp (hhead x hx1)
        exact ⟨h2.2, h2.1⟩
      · exact hrest x hx1 y hy1 hxy
    · intro hall
      constructor
      · intro b hb
        refine (indepPair_iff fp a b).mpr ?_
        exact hall a (List.mem_cons_self _ _) b (List.mem_cons_of_mem _ hb)
          (fun hc => hat (hc ▸ hb))
      · intro x hx y hy hxy
        exact hall x (List.mem_cons_of_mem _ hx) y (List.mem_cons_of_mem _ hy) hxy

theorem fpEvents_nodup (fp : Footprint) : (fpEvents fp).Nodup :=
  List.nodup_dedup _

/-- C3. `find_independent_sets` returns exactly the nonempty subsets of the
activities occurring in the footprint matrix whose distinct members are
pairwise related by the independent symbol in both directions; in particular
every singleton of an occurring activity is returned, and the empty footprint
yields the empty list. -/
theorem c3_independent_sets_exact (fp : Footprint) :
    (∀ S : Finset Activity,
      S ∈ find_independent_sets fp ↔
        S.Nonempty ∧ (∀ x ∈ S, x ∈ fpEvents fp) ∧
        (∀ a ∈ S, ∀ b ∈ S, a ≠ b →
          fpGetD fp (a, b) = .indep ∧ fpGetD fp (b, a) = .indep)) ∧
    (∀ a ∈ fpEvents fp, ({a} : Finset Activity) ∈ find_independent_sets fp) ∧
    find_independent_sets [] = [] := by
  have hmain : ∀ S : Finset Activity,
      S ∈ find_independent_sets fp ↔
        S.Nonempty ∧ (∀ x ∈ S, x ∈ fpEvents fp) ∧
        (∀ a ∈ S, ∀ b ∈ S, a ≠ b →
          fpGetD fp (a, b) = .indep ∧ fpGetD fp (b, a) = .indep) := by
    intro S
    constructor
    · intro hS
      obtain ⟨l, hl, hlS⟩ := List.mem_map.mp hS
      obtain ⟨hsubl, hcond⟩ := List.mem_filter.mp hl
      rw [Bool.and_eq_true] at hcond
      obtain ⟨hne, hindep⟩ := hcond
      have hsub : l.Sublist (fpEvents fp) := List.mem_sublists.mp hsubl
      have hnd : l.Nodup := hsub.nodup (fpEvents_nodup fp)
      have hnil : l ≠ [] := by
        intro hc
        rw [hc] at hne
        simp at hne
      refine ⟨?_, ?_, ?_⟩
      · obtain ⟨x, hx⟩ := List.exists_mem_of_ne_nil l hnil
        exact ⟨x, hlS ▸ List.mem_toFinset.mpr hx⟩
      · intro x hx
        have : x ∈ l := List.mem_toFinset.mp (hlS ▸ hx)
        exact hsub.subset this
      · intro a ha b hb hab
        have ha2 : a ∈ l := List.mem_toFinset.mp (hlS ▸ ha)
        have hb2 : b ∈ l := List.mem_toFinset.mp (hlS ▸ hb)
        exact (is_independent_set_iff fp l hnd).mp hindep a ha2 b hb2 hab
    · rintro ⟨hne, hsub, hpair⟩
      set l : List Activity := (fpEvents fp).filter (fun x => decide (x ∈ S)) with hl
      have hsubl : l.Sublist (fpEvents fp) := List.filter_sublist _
      have hmem : ∀ x, x ∈ l ↔ x ∈ S := by
        intro x
        rw [hl, List.mem_filter]
        simp only [decide_eq_true_eq]
        exact ⟨fun h => h.2, fun h => ⟨hsub x h, h⟩⟩
      have hLS : l.toFinset = S := by
        ext x
        rw [List.mem_toFinset, hmem]
      have hnd : l.Nodup := hsubl.nodup (fpEvents_nodup fp)
      have hnil : l ≠ [] := by
        obtain ⟨x, hx⟩ := hne
        exact List.ne_nil_of_mem ((hmem x).mpr hx)
      have hindep : is_independent_set fp l = true := by
        refine (is_independent_set_iff fp l hnd).mpr ?_
        intro a ha b hb hab
        exact hpair a ((hmem a).mp ha) b ((hmem b).mp hb) hab
      refine List.mem_map.mpr ⟨l, List.mem_filter.mpr ⟨List.mem_sublists.mpr hsubl, ?_⟩, hLS⟩
      rw [Bool.and_eq_true]
      refine ⟨?_, hindep⟩
      simp [List.isEmpty_iff, hnil]
  refine ⟨hmain, ?_, rfl⟩
  intro a ha
  refine (hmain {a}).mpr ⟨Finset.singleton_nonempty a, ?_, ?_⟩
  · intro x hx
    rw [Finset.mem_singleton.mp hx]
    exact ha
  · intro x hx y hy hxy
    rw [Finset.mem_singleton.mp hx, Finset.mem_singleton.mp hy] at hxy
    exact absurd rfl hxy

/-- Witness for C3: the singleton of the only occurring activity is found. -/
theorem c3_independent_sets_exact_witness :
    ({"a"} : Finset Activity) ∈ find_independent_sets [(("a", "a"), Rel.indep)] :=
  (c3_independent_sets_exact [(("a", "a"), Rel.indep)]).2.1 "a" (by decide)

/-! ### C4: find_transitions -/

theorem mem_pairsOf_cons {α : Type} (hd : α) (t : List α) (x y : α) :
    (x, y) ∈ pairsOf (hd :: t) ↔ (x = hd ∧ y ∈ t) ∨ (x, y) ∈ pairsOf t := by
  simp only [pairsOf, List.mem_append, List.mem_map, Prod.mk.injEq]
  constructor
  · rintro (⟨z, hz, hh, hz2⟩ | h2)
    · exact Or.inl ⟨hh.symm, hz2 ▸ hz⟩
    · exact Or.inr h2
  · rintro (⟨hx, hy⟩ | h2)
    · exact Or.inl ⟨y, hy, hx.symm, rfl⟩
    · exact Or.inr h2

theorem mem_of_mem_pairsOf {α : Type} {l : List α} {x y : α}
    (h : (x, y) ∈ pairsOf l) : x ∈ l ∧ y ∈ l := by
  induction l with
  | nil => simp [pairsOf] at h
  | cons hd t ih =>
    rcases (mem_pairsOf_cons hd t x y).mp h with ⟨hx, hy⟩ | h2
    · exact ⟨hx ▸ List.mem_cons_self _ _, List.mem_cons_of_mem _ hy⟩
    · obtain ⟨h3, h4⟩ := ih h2
      exact ⟨List.mem_cons_of_mem _ h3, List.mem_cons_of_mem _ h4⟩

theorem pairsOf_ne {α : Type} {l : List α} (hnd : l.Nodup) {x y : α}
    (h : (x, y) ∈ pairsOf l) : x ≠ y := by
  induction l with
  | nil => simp [pairsOf] at h
  | cons hd t ih =>
    obtain ⟨hat, ht⟩ := List.nodup_cons.mp hnd
    rcases (mem_pairsOf_cons hd t x y).mp h with ⟨hx, hy⟩ | h2
    · subst hx
      exact fun hc => hat (hc ▸ hy)
    · exact ih ht h2

theorem pairsOf_asymm {α : Type} {l : List α} (hnd : l.Nodup) {x y : α}
    (h : (x, y) ∈ pairsOf l) : (y, x) ∉ pairsOf l := by
  induction l with
  | nil => simp [pairsOf] at h
  | cons hd t ih =>
    obtain ⟨hat, ht⟩ := List.nodup_cons.mp hnd
    intro h2
    rcases (mem_pairsOf_cons hd t x y).mp h with ⟨hx, hy⟩ | h3 <;>
      rcases (mem_pairsOf_cons hd t y x).mp h2 with ⟨hy2, hx2⟩ | h4
    · exact hat (hy2 ▸ hy)
    · exact hat (hx ▸ (mem_of_mem_pairsOf h4).2)
    · exact hat (hy2 ▸ (mem_of_mem_pairsOf h3).2)
    · exact ih ht h3 h4

theorem cross_image_eq_singleton (fp : Footprint) (A B : Finset Activity)
    (hA : A.Nonempty) (hB : B.Nonempty) (v : Option Rel) :
    (A ×ˢ B).image (fun p => fpLookup fp p) = {v} ↔
      ∀ a ∈ A, ∀ b ∈ B, fpLookup fp (a, b) = v := by
  constructor
  · intro h a ha b hb
    have hmem : fpLookup fp (a, b) ∈ (A ×ˢ B).image (fun p => fpLookup fp p) :=
      Finset.mem_image_of_mem _ (Finset.mem_product.mpr ⟨ha, hb⟩)
    rw [h] at hmem
    exact Finset.mem_singleton.mp hmem
  · intro h
    ext v2
    simp only [Finset.mem_image, Finset.mem_singleton, Finset.mem_product]
    constructor
    · rintro ⟨⟨a, b⟩, ⟨ha, hb⟩, hv⟩
      rw [← hv]
      exact h a ha b hb
    · rintro rfl
      obtain ⟨a, ha⟩ := hA
      obtain ⟨b, hb⟩ := hB
      exact ⟨(a, b), ⟨ha, hb⟩, h a ha b hb⟩

theorem check_relationship_eq_some (fp : Footprint) (A B : Finset Activity)
    (r : Rel) :
    check_relationship fp A B = some r ↔
      (A ×ˢ B).image (fun p => fpLookup fp p) = {some r} := by
  have hc : (A ×ˢ B).image (fun p => fpLookup fp p) = crossRels fp A B := rfl
  rw [hc]
  unfold check_relationship
  cases r <;> split_ifs with h1 h2 h3 h4 <;> simp_all

theorem check_relationship_iff (fp : Footprint) (A B : Finset Activity)
    (hA : A.Nonempty) (hB : B.Nonempty) (r : Rel) :
    check_relationship fp A B = some r ↔
      ∀ a ∈ A, ∀ b ∈ B, fpLookup fp (a, b) = some r := by
  rw [check_relationship_eq_some, cross_image_eq_singleton fp A B hA hB]

theorem transitionOf_eq_some (fp : Footprint) (q1 q2 X Y : Finset Activity)
    (r : Rel) :
    transitionOf fp (q1, q2) = some ((X, Y), r) ↔
      (check_relationship fp q1 q2 = some .fwd ∧ q1 = X ∧ q2 = Y ∧ r = .fwd) ∨
      (check_relationship fp q1 q2 = some .par ∧ q1 = X ∧ q2 = Y ∧ r = .par) ∨
      (check_relationship fp q1 q2 = some .bwd ∧ q2 = X ∧ q1 = Y ∧ r = .fwd) := by
  unfold transitionOf
  rcases hc : check_relationship fp q1 q2 with _ | r2
  · simp [hc]
  · cases r2 <;> cases r <;> simp [hc, Prod.ext_iff, eq_comm]

/-- C4. For a processed unordered pair (A, B) of distinct nonempty
independent sets, `find_transitions` records (A, B) with symbol r exactly
when r is causal-forward or parallel and every cross pair (a, b) carries r;
it records the reversed transition (B, A) as causal-forward exactly when
every cross pair (a, b) carries causal-backward; and no set is ever paired
with itself. -/
theorem c4_transitions_exact (fp : Footprint) (sets : List (Finset Activity))
    (hnd : sets.Nodup) (A B : Finset Activity) (hmem : (A, B) ∈ pairsOf sets)
    (hA : A.Nonempty) (hB : B.Nonempty) :
    (∀ r : Rel, (((A, B), r) ∈ find_transitions fp sets ↔
      ((r = .fwd ∨ r = .par) ∧ ∀ a ∈ A, ∀ b ∈ B, fpLookup fp (a, b) = some r))) ∧
    ((((B, A), Rel.fwd) ∈ find_transitions fp sets) ↔
      ∀ a ∈ A, ∀ b ∈ B, fpLookup fp (a, b) = some .bwd) ∧
    (∀ r : Rel, r ≠ .fwd → ((B, A), r) ∉ find_transitions fp sets) ∧
    (∀ (C : Finset Activity) (r : Rel), ((C, C), r) ∉ find_transitions fp sets) := by
  have hswap : (B, A) ∉ pairsOf sets := pairsOf_asymm hnd hmem
  have hAB : A ≠ B := pairsOf_ne hnd hmem
  refine ⟨?_, ?_, ?_, ?_⟩
  · intro r
    unfold find_transitions
    rw [List.mem_filterMap]
    constructor
    · rintro ⟨⟨q1, q2⟩, hq, hqt⟩
      rcases (transitionOf_eq_some fp q1 q2 A B r).mp hqt with
        ⟨hcheck, h1, h2, hr⟩ | ⟨hcheck, h1, h2, hr⟩ | ⟨hcheck, h1, h2, hr⟩
      · subst hr
        rw [h1, h2] at hcheck
        exact ⟨Or.inl rfl, (check_relationship_iff fp A B hA hB .fwd).mp hcheck⟩
      · subst hr
        rw [h1, h2] at hcheck
        exact ⟨Or.inr rfl, (check_relationship_iff fp A B hA hB .par).mp hcheck⟩
      · rw [h2, h1] at hq
        exact absurd hq hswap
    · rintro ⟨hr | hr, hu⟩
      · subst hr
        refine ⟨(A, B), hmem, ?_⟩
        have hcheck : check_relationship fp A B = some .fwd :=
          (check_relationship_iff fp A B hA hB .fwd).mpr hu
        unfold transitionOf
        rw [hcheck]
      · subst hr
        refine ⟨(A, B), hmem, ?_⟩
        have hcheck : check_relationship fp A B = some .par :=
          (check_relationship_iff fp A B hA hB .par).mpr hu
        unfold transitionOf
        rw [hcheck]
  · unfold find_transitions
    rw [List.mem_filterMap]
    constructor
    · rintro ⟨⟨q1, q2⟩, hq, hqt⟩
      rcases (transitionOf_eq_some fp q1 q2 B A Rel.fwd).mp hqt with
        ⟨hcheck, h1, h2, hr⟩ | ⟨hcheck, h1, h2, hr⟩ | ⟨hcheck, h1, h2, hr⟩
      · rw [h1, h2] at hq
        exact absurd hq hswap
      · exact absurd hr (by simp)
      · rw [h2, h1] at hcheck
        exact (check_relationship_iff fp A B hA hB .bwd).mp hcheck
    · intro hu
      refine ⟨(A, B), hmem, ?_⟩
      have hcheck : check_relationship fp A B = some .bwd :=
        (check_relationship_iff fp A B hA hB .bwd).mpr hu
      unfold transitionOf
      rw [hcheck]
  · intro r hr hmem2
    unfold find_transitions at hmem2
    rw [List.mem_filterMap] at hmem2
    obtain ⟨⟨q1, q2⟩, hq, hqt⟩ := hmem2
    rcases (transitionOf_eq_some fp q1 q2 B A r).mp hqt with
      ⟨_, h1, h2, _⟩ | ⟨_, h1, h2, _⟩ | ⟨_, _, _, h4⟩
    · rw [h1, h2] at hq
      exact hswap hq
    · rw [h1, h2] at hq
      exact hswap hq
    · exact hr h4
  · intro C r hmem2
    unfold find_transitions at hmem2
    rw [List.mem_filterMap] at hmem2
    obtain ⟨⟨q1, q2⟩, hq, hqt⟩ := hmem2
    rcases (transitionOf_eq_some fp q1 q2 C C r).mp hqt with
      ⟨_, h1, h2, _⟩ | ⟨_, h1, h2, _⟩ | ⟨_, h1, h2, _⟩ <;>
    · rw [h1, h2] at hq
      exact pairsOf_ne hnd hq rfl

/-- Witness for C4: a one-edge footprint yields the causal transition. -/
theorem c4_transitions_exact_witness :
    ((({"a"} : Finset Activity), ({"b"} : Finset Activity)), Rel.fwd) ∈
      find_transitions [(("a", "b"), Rel.fwd)]
        [({"a"} : Finset Activity), ({"b"} : Finset Activity)] := by
  refine ((c4_transitions_exact [(("a", "b"), Rel.fwd)]
    [({"a"} : Finset Activity), ({"b"} : Finset Activity)] (by decide)
    {"a"} {"b"} (by decide) ⟨"a", by decide⟩ ⟨"b", by decide⟩).1 Rel.fwd).mpr ?_
  refine ⟨Or.inl rfl, ?_⟩
  decide

/-! ### C5: filter_maximal_sets -/

theorem augPairs_supset (t : (Finset Activity × Finset Activity) × Rel) :
    deconstruct_subset t.1 ⊆ augPairs t := by
  unfold augPairs
  split
  · exact Finset.subset_union_left
  · exact subset_refl _

theorem mem_filter_maximal_sets (ts : List ((Finset Activity × Finset Activity) × Rel))
    (x : (Finset Activity × Finset Activity) × Rel) :
    x ∈ filter_maximal_sets ts ↔ x ∈ ts ∧ discardedB ts x = false := by
  unfold filter_maximal_sets
  rw [List.mem_filter, Bool.not_eq_true']

theorem discardedB_iff (ts : List ((Finset Activity × Finset Activity) × Rel))
    (t : (Finset Activity × Finset Activity) × Rel) :
    discardedB ts t = true ↔
      (deconstruct_subset t.1).Nonempty ∧
      ∃ u ∈ ts, u.1 ≠ t.1 ∧ deconstruct_subset t.1 ⊆ deconstruct_subset u.1 := by
  unfold discardedB
  rw [decide_eq_true_eq]
  constructor
  · rintro ⟨p, hp, k, hk, hne, hsub⟩
    unfold pair_to_sets at hk
    obtain ⟨u, hu, huk⟩ := List.mem_map.mp hk
    obtain ⟨huts, _⟩ := List.mem_filter.mp hu
    exact ⟨⟨p, hp⟩, u, huts, huk ▸ hne, huk ▸ hsub⟩
  · rintro ⟨⟨p, hp⟩, u, hu, hne, hsub⟩
    refine ⟨p, hp, u.1, ?_, hne, hsub⟩
    unfold pair_to_sets
    refine List.mem_map.mpr ⟨u, List.mem_filter.mpr ⟨hu, ?_⟩, rfl⟩
    rw [decide_eq_true_eq]
    exact augPairs_supset u (hsub hp)

theorem product_inj (S1 S2 S3 S4 : Finset Activity)
    (hne : (S1 ×ˢ S2).Nonempty) (heq : S1 ×ˢ S2 = S3 ×ˢ S4) :
    S1 = S3 ∧ S2 = S4 := by
  obtain ⟨⟨x0, y0⟩, hxy⟩ := hne
  obtain ⟨hx0, hy0⟩ := Finset.mem_product.mp hxy
  obtain ⟨hx02, hy02⟩ := Finset.mem_product.mp (heq ▸ hxy)
  constructor
  · ext x
    constructor
    · intro hx
      have : (x, y0) ∈ S3 ×ˢ S4 := heq ▸ Finset.mem_product.mpr ⟨hx, hy0⟩
      exact (Finset.mem_product.mp this).1
    · intro hx
      have : (x, y0) ∈ S1 ×ˢ S2 := heq ▸ Finset.mem_product.mpr ⟨hx, hy02⟩
      exact (Finset.mem_product.mp this).1
  · ext y
    constructor
    · intro hy
      have : (x0, y) ∈ S3 ×ˢ S4 := heq ▸ Finset.mem_product.mpr ⟨hx0, hy⟩
      exact (Finset.mem_product.mp this).2
    · intro hy
      have : (x0, y) ∈ S1 ×ˢ S2 := heq ▸ Finset.mem_product.mpr ⟨hx02, hy⟩
      exact (Finset.mem_product.mp this).2

theorem key_eq_of_cov_eq {t u : (Finset Activity × Finset Activity) × Rel}
    (hne : (deconstruct_subset t.1).Nonempty)
    (heq : deconstruct_subset t.1 = deconstruct_subset u.1) : t.1 = u.1 := by
  obtain ⟨h1, h2⟩ := product_inj t.1.1 t.1.2 u.1.1 u.1.2 hne heq
  exact Prod.ext_iff.mpr ⟨h1, h2⟩

/-- C5. Under the pipeline invariant that every transition's input and
output sets are nonempty: a transition is discarded exactly when some
retained transition's cross-pair coverage is a strict superset of its own,
and no retained transition's coverage is a strict subset of another retained
transition's coverage. Unconditionally, two transitions with distinct keys
but equal coverage are both retained. -/
theorem c5_maximal_filter (ts : List ((Finset Activity × Finset Activity) × Rel)) :
    ((∀ t ∈ ts, t.1.1.Nonempty ∧ t.1.2.Nonempty) →
      (∀ t ∈ ts, (t ∉ filter_maximal_sets ts ↔
        ∃ u ∈ filter_maximal_sets ts,
          deconstruct_subset t.1 ⊂ deconstruct_subset u.1)) ∧
      (∀ t ∈ filter_maximal_sets ts, ∀ u ∈ filter_maximal_sets ts,
        ¬ deconstruct_subset t.1 ⊂ deconstruct_subset u.1)) ∧
    (∀ t ∈ ts, ∀ u ∈ ts, t.1 ≠ u.1 →
      deconstruct_subset t.1 = deconstruct_subset u.1 →
      t ∈ filter_maximal_sets ts ∧ u ∈ filter_maximal_sets ts) := by
  constructor
  · intro hne
    have hcovne : ∀ t ∈ ts, (deconstruct_subset t.1).Nonempty := by
      intro t ht
      exact Finset.Nonempty.product (hne t ht).1 (hne t ht).2
    have hiff : ∀ t ∈ ts, (t ∉ filter_maximal_sets ts ↔
        ∃ u ∈ filter_maximal_sets ts,
          deconstruct_subset t.1 ⊂ deconstruct_subset u.1) := by
      intro t ht
      constructor
      · intro hout
        have hdisc : discardedB ts t = true := by
          by_contra hc
          exact hout ((mem_filter_maximal_sets ts t).mpr
            ⟨ht, Bool.not_eq_true _ ▸ hc⟩)
        obtain ⟨hc0, u0, hu0, hkey0, hsub0⟩ := (discardedB_iff ts t).mp hdisc
        have hstrict0 : deconstruct_subset t.1 ⊂ deconstruct_subset u0.1 := by
          refine Finset.ssubset_iff_subset_ne.mpr ⟨hsub0, fun heq => ?_⟩
          exact hkey0 (key_eq_of_cov_eq hc0 heq).symm
        set cs := (ts.filter (fun u =>
          decide (deconstruct_subset t.1 ⊂ deconstruct_subset u.1))).toFinset with hcs
        have hu0cs : u0 ∈ cs := by
          rw [hcs, List.mem_toFinset, List.mem_filter, decide_eq_true_eq]
          exact ⟨hu0, hstrict0⟩
        obtain ⟨m, hmcs, hmax⟩ := Finset.exists_max_image cs
          (fun u => (deconstruct_subset u.1).card) ⟨u0, hu0cs⟩
        rw [hcs, List.mem_toFinset, List.mem_filter, decide_eq_true_eq] at hmcs
        obtain ⟨hmts, hmstrict⟩ := hmcs
        have hmkept : discardedB ts m = false := by
          by_contra hc
          rw [Bool.not_eq_false] at hc
          obtain ⟨hcm, w, hw, hwkey, hwsub⟩ := (discardedB_iff ts m).mp hc
          have hwstrict : deconstruct_subset m.1 ⊂ deconstruct_subset w.1 := by
            refine Finset.ssubset_iff_subset_ne.mpr ⟨hwsub, fun heq => ?_⟩
            exact hwkey (key_eq_of_cov_eq hcm heq).symm
          have hwcs : w ∈ cs := by
            rw [hcs, List.mem_toFinset, List.mem_filter, decide_eq_true_eq]
            exact ⟨hw, hmstrict.trans hwstrict⟩
          have hcard := hmax w hwcs
          exact absurd (Finset.card_lt_card hwstrict) (not_lt.mpr hcard)
        exact ⟨m, (mem_filter_maximal_sets ts m).mpr ⟨hmts, hmkept⟩, hmstrict⟩
      · rintro ⟨u, hu, hstrict⟩
        obtain ⟨huts, _⟩ := (mem_filter_maximal_sets ts u).mp hu
        have hdisc : discardedB ts t = true := by
          refine (discardedB_iff ts t).mpr ⟨hcovne t ht, u, huts, ?_, hstrict.subset⟩
          intro hk
          have : deconstruct_subset t.1 = deconstruct_subset u.1 := by
            unfold deconstruct_subset
            rw [hk]
          exact hstrict.ne this
        intro hin
        obtain ⟨_, hfalse⟩ := (mem_filter_maximal_sets ts t).mp hin
        rw [hdisc] at hfalse
        cases hfalse
    refine ⟨hiff, ?_⟩
    intro t ht u hu hstrict
    obtain ⟨hts, _⟩ := (mem_filter_maximal_sets ts t).mp ht
    exact (hiff t hts).mpr ⟨u, hu, hstrict⟩ ht
  · intro t ht u hu hkey heq
    by_cases hnecov : (deconstruct_subset t.1).Nonempty
    · exact absurd (key_eq_of_cov_eq hnecov heq) hkey
    · have hct : deconstruct_subset t.1 = ∅ :=
        Finset.not_nonempty_iff_eq_empty.mp hnecov
      have hcu : deconstruct_subset u.1 = ∅ := heq ▸ hct
      constructor
      · refine (mem_filter_maximal_sets ts t).mpr ⟨ht, ?_⟩
        by_contra hc
        rw [Bool.not_eq_false] at hc
        obtain ⟨hne2, _⟩ := (discardedB_iff ts t).mp hc
        rw [hct] at hne2
        exact Finset.not_nonempty_empty hne2
      · refine (mem_filter_maximal_sets ts u).mpr ⟨hu, ?_⟩
        by_contra hc
        rw [Bool.not_eq_false] at hc
        obtain ⟨hne2, _⟩ := (discardedB_iff ts u).mp hc
        rw [hcu] at hne2
        exact Finset.not_nonempty_empty hne2

/-- Witness for C5: the smaller of two nested transitions is discarded. -/
theorem c5_maximal_filter_witness :
    ((({"a"} : Finset Activity), ({"b"} : Finset Activity)), Rel.fwd) ∉
      filter_maximal_sets
        [((({"a"} : Finset Activity), ({"b"} : Finset Activity)), Rel.fwd),
         ((({"a"} : Finset Activity), ({"b", "c"} : Finset Activity)), Rel.fwd)] := by
  refine (((c5_maximal_filter
    [((({"a"} : Finset Activity), ({"b"} : Finset Activity)), Rel.fwd),
     ((({"a"} : Finset Activity), ({"b", "c"} : Finset Activity)), Rel.fwd)]).1
    (by decide)).1
    ((({"a"} : Finset Activity), ({"b"} : Finset Activity)), Rel.fwd)
    (by decide)).mpr ?_
  refine ⟨((({"a"} : Finset Activity), ({"b", "c"} : Finset Activity)), Rel.fwd),
    by decide, by decide⟩

end ProcessMining
